import Mathlib

/-
Verification of the multi-notation boolean-expression engine
(src/app/components/logic of the tams-tools repository).

The embedding below translates, from the source:
  * the jison grammar embedded in src/app/components/logic/index.js
    (lexical rules, the %left precedence declarations, and the
    expressions / expressionList / e productions);
  * the language registry, auto-detection loop, analyze, handleError,
    row-selection scan and sub-evaluation logic of
    src/app/components/logic/model/index.js.

Parts of the repository that the model file imports but that are not
present under src/ (the lib/expression helpers collectIdentifiers,
collectSubExpressions, evaluateExpression, expressionFromJson, and the
behaviour of the Immutable.js collections they rely on) are modelled
from the spec; each such definition carries a doc comment saying so.
-/

namespace TamsLogic

/-- Offset of a source position, as in the pegjs/jison
`location.start.offset` field read by the auto-detection loop. -/
structure SrcPos where
  offset : Nat
deriving DecidableEq, Repr

/-- A source location; only its `start` component is consulted by the code. -/
structure SrcLocation where
  start : SrcPos
deriving DecidableEq, Repr

/-- A grammar failure: the message/location pair carried by the errors the
concrete grammars throw. -/
structure SynErr where
  message : String
  location : SrcLocation
deriving DecidableEq, Repr

/-- Tokens of the lexical grammar embedded in
src/app/components/logic/index.js (%lex section). -/
inductive Token where
  | TRUE
  | FALSE
  | AND
  | OR
  | XOR
  | NOT
  | IDENTIFIER (name : String)
  | LPAREN
  | RPAREN
  | COMMA
deriving DecidableEq, Repr

deriving instance DecidableEq for Except

/-- First character of the IDENTIFIER rule: [A-Za-z]. -/
def isIdentStart (c : Char) : Bool := c.isAlpha

/-- Continuation characters of the IDENTIFIER rule: [_A-Za-z0-9]. -/
def isWordChar (c : Char) : Bool := c.isAlpha || c.isDigit || c = '_'

/-- Greedy munch of a character class, as a regex like [_A-Za-z0-9]* does:
returns the matched characters and the remainder. -/
def munch (p : Char → Bool) : List Char → (List Char × List Char)
  | [] => ([], [])
  | c :: cs =>
    if p c then
      let t := munch p cs
      (c :: t.1, t.2)
    else ([], c :: cs)

/-- The lexer of the embedded jison grammar.  Rules are tried in
declaration order (jison default: the first rule that matches wins):
whitespace is skipped, the fixed keywords true/false/and/or/xor/not
come before the IDENTIFIER rule, then the punctuation rules.  Every
step consumes at least one character, so fuel = length of the input
plus one always suffices. -/
def tokenizeF : Nat → List Char → Nat → Except SynErr (List Token)
  | 0, _, _ => .error ⟨"out of fuel", ⟨⟨0⟩⟩⟩
  | _ + 1, [], _ => .ok []
  | f + 1, 't' :: 'r' :: 'u' :: 'e' :: rest, pos =>
    (tokenizeF f rest (pos + 4)).map (fun ts => Token.TRUE :: ts)
  | f + 1, 'f' :: 'a' :: 'l' :: 's' :: 'e' :: rest, pos =>
    (tokenizeF f rest (pos + 5)).map (fun ts => Token.FALSE :: ts)
  | f + 1, 'a' :: 'n' :: 'd' :: rest, pos =>
    (tokenizeF f rest (pos + 3)).map (fun ts => Token.AND :: ts)
  | f + 1, 'o' :: 'r' :: rest, pos =>
    (tokenizeF f rest (pos + 2)).map (fun ts => Token.OR :: ts)
  | f + 1, 'x' :: 'o' :: 'r' :: rest, pos =>
    (tokenizeF f rest (pos + 3)).map (fun ts => Token.XOR :: ts)
  | f + 1, 'n' :: 'o' :: 't' :: rest, pos =>
    (tokenizeF f rest (pos + 3)).map (fun ts => Token.NOT :: ts)
  | f + 1, '(' :: rest, pos =>
    (tokenizeF f rest (pos + 1)).map (fun ts => Token.LPAREN :: ts)
  | f + 1, ')' :: rest, pos =>
    (tokenizeF f rest (pos + 1)).map (fun ts => Token.RPAREN :: ts)
  | f + 1, ',' :: rest, pos =>
    (tokenizeF f rest (pos + 1)).map (fun ts => Token.COMMA :: ts)
  | f + 1, c :: rest, pos =>
    if c.isWhitespace then tokenizeF f rest (pos + 1)
    else if isIdentStart c then
      let m := munch isWordChar rest
      (tokenizeF f m.2 (pos + 1 + m.1.length)).map
        (fun ts => Token.IDENTIFIER (String.mk (c :: m.1)) :: ts)
    else .error ⟨"unexpected character", ⟨⟨pos⟩⟩⟩

/-- Lexing with always-sufficient fuel. -/
def tokenize (cs : List Char) (pos : Nat) : Except SynErr (List Token) :=
  tokenizeF (cs.length + 1) cs pos

/-- Raw parse-tree nodes, exactly the object shapes produced by the
semantic actions of the embedded grammar. -/
inductive RawNode where
  | binary (operator : String) (lhs rhs : RawNode)
  | unary (operator : String) (operand : RawNode)
  | group (style : Nat) (content : RawNode)
  | identifier (name : String)
  | constant (value : Bool)
deriving DecidableEq, Repr

/-- Precedence level a binary-operator token gets from the %left
declarations of the grammar.  In jison/yacc a later declaration binds
tighter, so the declaration order
  %left AND
  %left OR
  %left XOR
  %left NOT
gives AND the loosest level and NOT the tightest. -/
def opLevel : Token → Option Nat
  | Token.AND => some 1
  | Token.OR => some 2
  | Token.XOR => some 3
  | _ => none

/-- Level of the prefix production e : NOT e (the precedence of its
rightmost terminal NOT, the fourth %left line). -/
def notLevel : Nat := 4

/-- The operator string stored in the semantic action for a binary token. -/
def opName : Token → String
  | Token.AND => "AND"
  | Token.OR => "OR"
  | Token.XOR => "XOR"
  | _ => ""

mutual

/-- The `e` production of the grammar, with the shift/reduce conflicts
resolved by the %left precedence table exactly as an LALR parser does:
a binary operator of level `lv` may extend the current expression only
when `minLv ≤ lv`, and its right operand is parsed at level `lv + 1`
(left associativity).  Fuel makes the recursion structural; callers pass
enough fuel for the token list at hand. -/
def parseE : Nat → Nat → List Token → Except SynErr (RawNode × List Token)
  | 0, _, _ => .error ⟨"out of fuel", ⟨⟨0⟩⟩⟩
  | f + 1, minLv, ts =>
    match parseNud f ts with
    | .error e => .error e
    | .ok (left, rest) => parseLoop f minLv left rest

/-- Prefix part of the `e` production: NOT e, ( e ), IDENTIFIER, TRUE,
FALSE, with the semantic actions of the grammar. -/
def parseNud : Nat → List Token → Except SynErr (RawNode × List Token)
  | 0, _ => .error ⟨"out of fuel", ⟨⟨0⟩⟩⟩
  | f + 1, ts =>
    match ts with
    | Token.NOT :: rest =>
      match parseE f (notLevel + 1) rest with
      | .error e => .error e
      | .ok (operand, rest2) => .ok (RawNode.unary "NOT" operand, rest2)
    | Token.LPAREN :: rest =>
      match parseE f 1 rest with
      | .error e => .error e
      | .ok (content, rest2) =>
        match rest2 with
        | Token.RPAREN :: rest3 => .ok (RawNode.group 1 content, rest3)
        | _ => .error ⟨"expected closing paren", ⟨⟨0⟩⟩⟩
    | Token.IDENTIFIER n :: rest => .ok (RawNode.identifier n, rest)
    | Token.TRUE :: rest => .ok (RawNode.constant true, rest)
    | Token.FALSE :: rest => .ok (RawNode.constant false, rest)
    | _ => .error ⟨"unexpected token", ⟨⟨0⟩⟩⟩

/-- Binary-operator loop of the `e` production. -/
def parseLoop : Nat → Nat → RawNode → List Token →
    Except SynErr (RawNode × List Token)
  | 0, _, _, _ => .error ⟨"out of fuel", ⟨⟨0⟩⟩⟩
  | f + 1, minLv, left, ts =>
    match ts with
    | t :: rest =>
      match opLevel t with
      | some lv =>
        if minLv ≤ lv then
          match parseE f (lv + 1) rest with
          | .error e => .error e
          | .ok (right, rest2) =>
            parseLoop f minLv (RawNode.binary (opName t) left right) rest2
        else .ok (left, ts)
      | none => .ok (left, ts)
    | [] => .ok (left, ts)

end

/-- The `expressionList` production: e (',' e)*. -/
def parseList : Nat → List RawNode → List Token → Except SynErr (List RawNode)
  | 0, _, _ => .error ⟨"out of fuel", ⟨⟨0⟩⟩⟩
  | f + 1, acc, ts =>
    match parseE f 1 ts with
    | .error e => .error e
    | .ok (e, rest) =>
      match rest with
      | [] => .ok (acc ++ [e])
      | Token.COMMA :: rest2 => parseList f (acc ++ [e]) rest2
      | _ :: _ => .error ⟨"unexpected token after expression", ⟨⟨0⟩⟩⟩

/-- The `expressions` start rule of the grammar:
  expressions : expressionList EOF  | EOF ;
an empty token stream yields the empty expression list. -/
def parseExpressions (ts : List Token) : Except SynErr (List RawNode) :=
  match ts with
  | [] => .ok []
  | _ :: _ => parseList (3 * ts.length + 3) [] ts

/-- A grammar = a lexer composed with the token-level productions; the
four concrete notations differ only in their lexical surface. -/
def parseWithLexer (lex : String → Except SynErr (List Token))
    (s : String) : Except SynErr (List RawNode) :=
  match lex s with
  | .error e => .error e
  | .ok ts => parseExpressions ts

/-- The parser generated from the grammar embedded in
src/app/components/logic/index.js. -/
def logicParse (s : String) : Except SynErr (List RawNode) :=
  parseWithLexer (fun str => tokenize str.toList 0) s

/-- Canonical AST nodes (the data model of the spec, section 3); the
operator field stores the same strings the raw nodes carry. -/
inductive Expression where
  | binaryOp (operator : String) (left right : Expression)
  | unaryOp (operator : String) (operand : Expression)
  | group (content : Expression)
  | identifier (name : String)
  | constant (value : Bool)
deriving DecidableEq, Repr

/-- Modelled from the spec: `expressionFromJson` of ../lib/expression is
absent from src/; section 4.3 describes it as a total, side-effect-free
structural mapping from each grammar's raw node shape into the canonical
AST variants, preserving Group wrappers. -/
def expressionFromJson : RawNode → Expression
  | RawNode.binary op l r =>
    Expression.binaryOp op (expressionFromJson l) (expressionFromJson r)
  | RawNode.unary op e => Expression.unaryOp op (expressionFromJson e)
  | RawNode.group _ e => Expression.group (expressionFromJson e)
  | RawNode.identifier n => Expression.identifier n
  | RawNode.constant v => Expression.constant v

/-- Modelled from the spec: `collectIdentifiers` of ../lib/expression is
absent from src/; section 4.4 describes it as the depth-first pre-order,
left-to-right traversal recording each Identifier name. -/
def collectIdentifiers : Expression → List String
  | Expression.binaryOp _ l r => collectIdentifiers l ++ collectIdentifiers r
  | Expression.unaryOp _ e => collectIdentifiers e
  | Expression.group e => collectIdentifiers e
  | Expression.identifier n => [n]
  | Expression.constant _ => []

/-- All nodes of the subtree of an expression, root first, in depth-first
pre-order. -/
def subNodes : Expression → List Expression
  | Expression.binaryOp op l r =>
    Expression.binaryOp op l r :: (subNodes l ++ subNodes r)
  | Expression.unaryOp op e => Expression.unaryOp op e :: subNodes e
  | Expression.group e => Expression.group e :: subNodes e
  | Expression.identifier n => [Expression.identifier n]
  | Expression.constant v => [Expression.constant v]

/-- Keep the first occurrence of each element not yet seen, dropping
later duplicates. -/
def dedupFirstAux {α : Type} [DecidableEq α] (seen : List α) :
    List α → List α
  | [] => []
  | a :: as =>
    if a ∈ seen then dedupFirstAux seen as
    else a :: dedupFirstAux (a :: seen) as

/-- Keep the first occurrence of each element, dropping later duplicates:
the order-preserving deduplication an insertion-ordered set performs. -/
def dedupFirst {α : Type} [DecidableEq α] (l : List α) : List α :=
  dedupFirstAux [] l

/-- Modelled from the spec: `collectSubExpressions` of ../lib/expression
is absent from src/; section 4.4 describes it as the set of every node
of the subtree of one expression, root included, deduplicated by
structural equality, enumerated in traversal order of first occurrence
(the model file converts it with .toList()). -/
def collectSubExpressions (e : Expression) : List Expression :=
  dedupFirst (subNodes e)

/-- The record the `parse` function of model/index.js builds from a
successful parse (its expressions already normalized). -/
structure ParsedDoc where
  lang : String
  detected : Option String
  string : String
  showSubExpressions : Bool
  expressions : List Expression
deriving DecidableEq, Repr

/-- The record `analyze` of model/index.js returns. -/
structure AnalyzedDoc where
  lang : String
  detected : Option String
  string : String
  expressions : List Expression
  identifiers : List String
  subExpressions : List Expression
  toplevelExpressions : List Expression
  showSubExpressions : Bool
deriving DecidableEq, Repr

/-- Whether a node is neither a bare identifier nor a bare constant
(the filter `e.node !== 'identifier' && e.node !== 'constant'`). -/
def isCompound : Expression → Bool
  | Expression.identifier _ => false
  | Expression.constant _ => false
  | _ => true

/-- `analyze` of model/index.js.  `identifiers` is
flatMap collectIdentifiers followed by .toSet().toList(), modelled as
first-occurrence deduplication (Immutable.js sets enumerate in insertion
order); `subExpressions` is flatMap of the per-expression sub-expression
sets, concatenated with no deduplication across list entries;
`toplevelExpressions` filters out bare identifiers and constants. -/
def analyze (doc : ParsedDoc) : AnalyzedDoc :=
  { lang := doc.lang
    detected := doc.detected
    string := doc.string
    expressions := doc.expressions
    identifiers := dedupFirst (doc.expressions.flatMap collectIdentifiers)
    subExpressions := doc.expressions.flatMap (fun e => collectSubExpressions e)
    toplevelExpressions := doc.expressions.filter (fun e => isCompound e)
    showSubExpressions := doc.showSubExpressions }

/-- What a concrete language's parse returns: the language tag and the
list of raw parse nodes. -/
structure LangResult where
  lang : String
  parsed : List RawNode
deriving DecidableEq, Repr

/-- A language record of model/index.js: a name and a parse function
that either returns a result or throws a grammar failure. -/
structure Language where
  name : String
  parse : String → Except SynErr LangResult

/-- What autoLang.parse returns on success. -/
structure AutoResult where
  parsed : List RawNode
  lang : String
  detected : Option String
deriving DecidableEq, Repr

/-- The ParseError constructed in model/index.js. -/
structure ParseError where
  lang : String
  string : String
  message : String
  location : SrcLocation
  detected : Option String
deriving DecidableEq, Repr

/-- The ordered language list `allLanguages` of model/index.js is
[cLang, pythonLang, latexLang, mathLang]; the four pegjs grammars are
imported files absent from src/, so the list is parameterized by their
parse functions while keeping the names and the order of the source. -/
def allLanguagesOf (pc pp pl pm : String → Except SynErr LangResult) :
    List Language :=
  [⟨"C", pc⟩, ⟨"Python", pp⟩, ⟨"Latex", pl⟩, ⟨"Math", pm⟩]

/-- The loop body of autoLang.parse in model/index.js: try each language
in order; return the first success tagged lang 'auto' and detected =
that language's name; otherwise remember the failure whose
location.start.offset is strictly largest so far (ties keep the earlier
one) and, after the loop, throw a ParseError carrying it.  The result
`none` models the crash the source would hit dereferencing a null error
after an empty language list. -/
def autoLoop (string : String) :
    List Language → Option SynErr → Option String →
    Option (Except ParseError AutoResult)
  | [], error, detected =>
    match error with
    | none => none
    | some err =>
      some (.error
        { lang := "auto", string := string, message := err.message
          location := err.location, detected := detected })
  | l :: rest, error, detected =>
    match l.parse string with
    | .ok result =>
      some (.ok { parsed := result.parsed, lang := "auto", detected := some l.name })
    | .error e =>
      match error with
      | none => autoLoop string rest (some e) (some l.name)
      | some err =>
        if e.location.start.offset > err.location.start.offset then
          autoLoop string rest (some e) (some l.name)
        else
          autoLoop string rest (some err) detected

/-- autoLang.parse of model/index.js. -/
def autoParse (langs : List Language) (string : String) :
    Option (Except ParseError AutoResult) :=
  autoLoop string langs none none

/-- The evaluation map is keyed both by AST nodes and by identifier
names; the two key spaces are distinct. -/
def EvalKey : Type := Expression ⊕ String
deriving instance DecidableEq for EvalKey

/-- Lookup in a map built from an entry list where a later entry for the
same key overwrites an earlier one (Immutable.js Map construction and
merge semantics). -/
def mapGet {κ β : Type} [DecidableEq κ] : List (κ × β) → κ → Option β
  | [], _ => none
  | e :: es, k =>
    match mapGet es k with
    | some v => some v
    | none => if e.1 = k then some e.2 else none

/-- Modelled from the spec: `evaluateExpression` of ../lib/expression is
absent from src/; section 4.5 defines it by structural recursion, with
Group transparent, NOT as negation, AND/OR/XOR as the two-valued
connectives, and an identifier looked up in the assignment (a missing
name is a contract violation, modelled as the `none` result). -/
def evaluateExpression (asg : List (String × Bool)) :
    Expression → Option Bool
  | Expression.constant v => some v
  | Expression.identifier n => mapGet asg n
  | Expression.group e => evaluateExpression asg e
  | Expression.unaryOp op e =>
    if op = "NOT" then (evaluateExpression asg e).map (fun b => !b) else none
  | Expression.binaryOp op l r =>
    match evaluateExpression asg l, evaluateExpression asg r with
    | some a, some b =>
      if op = "AND" then some (a && b)
      else if op = "OR" then some (a || b)
      else if op = "XOR" then some (xor a b)
      else none
    | _, _ => none

/-- JavaScript ToUint32 of an integer. -/
def toUint32 (n : Int) : Nat := (n % ((2 : Int) ^ 32)).toNat

/-- JavaScript ToInt32 of an integer. -/
def toInt32 (n : Int) : Int :=
  let m := n % ((2 : Int) ^ 32)
  if m < (2 : Int) ^ 31 then m else m - (2 : Int) ^ 32

/-- The JavaScript bitwise AND on numbers: both operands are converted
to 32-bit integers and the result is read back as a signed 32-bit
integer. -/
def jsAnd (a b : Int) : Int :=
  toInt32 ((Nat.land (toUint32 a) (toUint32 b) : Nat) : Int)

/-- Math.pow(2, i): powers of two are exactly representable, so the
model keeps exact integers. -/
def mathPow2 (i : Nat) : Int := (2 : Int) ^ i

/-- Map with the element index, as the two-argument callback of
Immutable.js List.map receives it. -/
def mapWithIndex {α β : Type} (f : α → Nat → β) : List α → Nat → List β
  | [], _ => []
  | a :: as, i => f a i :: mapWithIndex f as (i + 1)

/-- The identifierMap of model/index.js, lines 214-216: each
identifiers[i] is mapped to !!(Math.pow(2, i) & selectedRow). -/
def identifierMapOf (identifiers : List String) (r : Int) :
    List (String × Bool) :=
  mapWithIndex (fun name i => (name, !(jsAnd (mathPow2 i) r = 0))) identifiers 0

/-- subEvalutation of model/index.js, lines 210-221: null when no row is
selected; otherwise the map of every top-level expression to its
evaluation under the identifierMap, merged with the identifierMap
itself (merge lets the later entries win, and the two key spaces are
disjoint).  The map is represented by its entry list; `mapGet` reads
it back. -/
def subEvalutation (identifiers : List String)
    (toplevelExpressions : List Expression) (selectedRow : Option Int) :
    Option (List (EvalKey × Option Bool)) :=
  match selectedRow with
  | none => none
  | some r =>
    let identifierMap := identifierMapOf identifiers r
    some
      ((toplevelExpressions.map
          (fun expr => (Sum.inl expr, evaluateExpression identifierMap expr)))
        ++ identifierMap.map (fun p => (Sum.inr p.1, some p.2)))

/-- JavaScript strict equality on (number | null) values. -/
def jsStrictEq : Option Int → Option Int → Bool
  | some a, some b => a == b
  | none, none => true
  | _, _ => false

/-- The accumulator of selectRow$.startWith(null).scan(...) in
model/index.js, lines 205-207: (prev, val) => prev === val ? null : val. -/
def selectRowStep (prev val : Option Int) : Option Int :=
  if jsStrictEq prev val then none else val

/-- The error value placed in the output state record. -/
structure ErrorValue where
  location : SrcLocation
  message : String
deriving DecidableEq, Repr

/-- The state record the model emits on the success path
(model/index.js lines 224-237); `error` is the undefined field of the
analyze record there, `table` the empty Immutable list. -/
structure OutState where
  lang : String
  detected : Option String
  string : String
  expressions : List Expression
  identifiers : List String
  subExpressions : List Expression
  showSubExpressions : Bool
  error : Option ErrorValue
  selectedRow : Option Int
  subEvalutation : Option (List (EvalKey × Option Bool))
  toplevelExpressions : List Expression
  table : List Unit
deriving DecidableEq

/-- One emission of the inner stream for a given analyzed document and a
given scanned selection state. -/
def mkOutState (lang string : String) (showSubExpressions : Bool)
    (doc : AnalyzedDoc) (selectedRow : Option Int) : OutState :=
  { lang := lang
    detected := doc.detected
    string := string
    expressions := doc.expressions
    identifiers := doc.identifiers
    subExpressions := doc.subExpressions
    showSubExpressions := showSubExpressions
    error := none
    selectedRow := selectedRow
    subEvalutation :=
      subEvalutation doc.identifiers doc.toplevelExpressions selectedRow
    toplevelExpressions := doc.toplevelExpressions
    table := [] }

/-- The inner stream spawned for one analyzed document:
selectRow$.startWith(null).scan(...) maps every scanned selection state
to an output record.  scanl emits its seed (null) first, exactly as an
Rx scan without a seed emits the startWith value unchanged. -/
def statesFor (lang string : String) (showSubExpressions : Bool)
    (doc : AnalyzedDoc) (rowEvents : List (Option Int)) : List OutState :=
  (List.scanl selectRowStep none rowEvents).map
    (mkOutState lang string showSubExpressions doc)

/-- One generation of the combineLatest inputs: the latched text,
language and flag, the document analyzed from them, and the row events
that arrive while this generation is current. -/
structure Segment where
  lang : String
  string : String
  showSubExpressions : Bool
  doc : AnalyzedDoc
  rowEvents : List (Option Int)

/-- The emissions of one segment's inner stream. -/
def segStates (seg : Segment) : List OutState :=
  statesFor seg.lang seg.string seg.showSubExpressions seg.doc seg.rowEvents

/-- combineLatest(...).switch(): every change of text, language or flag
switches the output to the fresh inner stream of the new generation, so
the overall emission sequence is the concatenation of the per-generation
emissions. -/
def modelTrace (segs : List Segment) : List OutState :=
  segs.flatMap segStates

/-- The full output-schema record with every field optional: a code path
that does not set a field leaves it `none` (absent). -/
structure StateRecord where
  lang : Option String := none
  detected : Option (Option String) := none
  string : Option String := none
  error : Option ErrorValue := none
  expressions : Option (List Expression) := none
  identifiers : Option (List String) := none
  subExpressions : Option (List Expression) := none
  toplevelExpressions : Option (List Expression) := none
  showSubExpressions : Option Bool := none
  selectedRow : Option (Option Int) := none
deriving DecidableEq, Repr

/-- handleError of model/index.js, lines 171-181: the record emitted
when parsing failed sets exactly lang, detected, error (location and
message) and string. -/
def handleError (e : ParseError) : StateRecord :=
  { lang := some e.lang
    detected := some e.detected
    error := some { location := e.location, message := e.message }
    string := some e.string }

/-- A node of one expression's subtree: the root itself or a node of a
child's subtree. -/
inductive IsSubNode : Expression → Expression → Prop where
  | refl (e : Expression) : IsSubNode e e
  | binL {x : Expression} {op : String} {l r : Expression} :
      IsSubNode x l → IsSubNode x (Expression.binaryOp op l r)
  | binR {x : Expression} {op : String} {l r : Expression} :
      IsSubNode x r → IsSubNode x (Expression.binaryOp op l r)
  | un {x : Expression} {op : String} {e : Expression} :
      IsSubNode x e → IsSubNode x (Expression.unaryOp op e)
  | grp {x e : Expression} :
      IsSubNode x e → IsSubNode x (Expression.group e)

theorem mem_subNodes_iff (x : Expression) :
    ∀ e : Expression, x ∈ subNodes e ↔ IsSubNode x e := by
  intro e
  induction e with
  | binaryOp op l r ihl ihr =>
    simp only [subNodes, List.mem_cons, List.mem_append, ihl, ihr]
    constructor
    · rintro (h | h | h)
      · exact h ▸ IsSubNode.refl _
      · exact IsSubNode.binL h
      · exact IsSubNode.binR h
    · intro h
      cases h with
      | refl => exact Or.inl rfl
      | binL h => exact Or.inr (Or.inl h)
      | binR h => exact Or.inr (Or.inr h)
  | unaryOp op e ih =>
    simp only [subNodes, List.mem_cons, ih]
    constructor
    · rintro (h | h)
      · exact h ▸ IsSubNode.refl _
      · exact IsSubNode.un h
    · intro h
      cases h with
      | refl => exact Or.inl rfl
      | un h => exact Or.inr h
  | group e ih =>
    simp only [subNodes, List.mem_cons, ih]
    constructor
    · rintro (h | h)
      · exact h ▸ IsSubNode.refl _
      · exact IsSubNode.grp h
    · intro h
      cases h with
      | refl => exact Or.inl rfl
      | grp h => exact Or.inr h
  | identifier n =>
    simp only [subNodes, List.mem_singleton]
    constructor
    · intro h; exact h ▸ IsSubNode.refl _
    · intro h; cases h; rfl
  | constant v =>
    simp only [subNodes, List.mem_singleton]
    constructor
    · intro h; exact h ▸ IsSubNode.refl _
    · intro h; cases h; rfl

theorem mem_dedupFirstAux {α : Type} [DecidableEq α] :
    ∀ (l seen : List α) (x : α),
      x ∈ dedupFirstAux seen l ↔ x ∈ l ∧ x ∉ seen := by
  intro l
  induction l with
  | nil =>
    intro seen x
    simp [dedupFirstAux]
  | cons a as ih =>
    intro seen x
    by_cases h : a ∈ seen
    · rw [dedupFirstAux, if_pos h, ih]
      simp only [List.mem_cons]
      constructor
      · rintro ⟨hx, hns⟩
        exact ⟨Or.inr hx, hns⟩
      · rintro ⟨hx | hx, hns⟩
        · exact absurd (hx ▸ h) hns
        · exact ⟨hx, hns⟩
    · rw [dedupFirstAux, if_neg h]
      simp only [List.mem_cons, ih]
      constructor
      · rintro (hx | ⟨hx, hns⟩)
        · subst hx
          exact ⟨Or.inl rfl, h⟩
        · constructor
          · exact Or.inr hx
          · intro hs
            exact hns (Or.inr hs)
      · rintro ⟨hx | hx, hns⟩
        · exact Or.inl hx
        · by_cases hxa : x = a
          · exact Or.inl hxa
          · exact Or.inr ⟨hx, fun hs => hs.elim hxa hns⟩

theorem nodup_dedupFirstAux {α : Type} [DecidableEq α] :
    ∀ (l seen : List α), (dedupFirstAux seen l).Nodup := by
  intro l
  induction l with
  | nil =>
    intro seen
    simp [dedupFirstAux]
  | cons a as ih =>
    intro seen
    by_cases h : a ∈ seen
    · rw [dedupFirstAux, if_pos h]
      exact ih seen
    · rw [dedupFirstAux, if_neg h]
      refine List.nodup_cons.mpr ⟨fun hmem => ?_, ih (a :: seen)⟩
      rw [mem_dedupFirstAux] at hmem
      exact hmem.2 (List.mem_cons_self a seen)

theorem pairwise_indexOf_dedupFirstAux {α : Type} [DecidableEq α] :
    ∀ (l seen : List α),
      (dedupFirstAux seen l).Pairwise
        (fun x y => l.indexOf x < l.indexOf y) := by
  intro l
  induction l with
  | nil =>
    intro seen
    simp [dedupFirstAux]
  | cons a as ih =>
    intro seen
    by_cases h : a ∈ seen
    · rw [dedupFirstAux, if_pos h]
      refine ((ih seen).imp_of_mem ?_)
      intro x y hx hy hxy
      rw [mem_dedupFirstAux] at hx hy
      have hxa : a ≠ x := fun e => hx.2 (e ▸ h)
      have hya : a ≠ y := fun e => hy.2 (e ▸ h)
      rw [List.indexOf_cons_ne as hxa, List.indexOf_cons_ne as hya]
      omega
    · rw [dedupFirstAux, if_neg h]
      rw [List.pairwise_cons]
      constructor
      · intro y hy
        rw [mem_dedupFirstAux] at hy
        have hya : a ≠ y := fun e => hy.2 (e ▸ List.mem_cons_self a seen)
        rw [List.indexOf_cons_self, List.indexOf_cons_ne as hya]
        omega
      · refine ((ih (a :: seen)).imp_of_mem ?_)
        intro x y hx hy hxy
        rw [mem_dedupFirstAux] at hx hy
        have hxa : a ≠ x := fun e => hx.2 (e ▸ List.mem_cons_self a seen)
        have hya : a ≠ y := fun e => hy.2 (e ▸ List.mem_cons_self a seen)
        rw [List.indexOf_cons_ne as hxa, List.indexOf_cons_ne as hya]
        omega

theorem mem_dedupFirst {α : Type} [DecidableEq α] (l : List α) (x : α) :
    x ∈ dedupFirst l ↔ x ∈ l := by
  rw [dedupFirst, mem_dedupFirstAux]
  simp

theorem nodup_dedupFirst {α : Type} [DecidableEq α] (l : List α) :
    (dedupFirst l).Nodup :=
  nodup_dedupFirstAux l []

theorem pairwise_indexOf_dedupFirst {α : Type} [DecidableEq α] (l : List α) :
    (dedupFirst l).Pairwise (fun x y => l.indexOf x < l.indexOf y) :=
  pairwise_indexOf_dedupFirstAux l []

/-- Claim C4: for every list of top-level expressions, analyze produces
identifiers equal to the list of distinct Identifier names in first-seen
order under a depth-first pre-order, left-to-right traversal of the
expressions in list order, each name appearing exactly once: the result
is duplicate-free, contains exactly the names of the traversal, and is
ordered by first occurrence in the traversal. -/
theorem claim4_identifiers_first_seen (doc : ParsedDoc) :
    (analyze doc).identifiers.Nodup ∧
    (∀ n : String, n ∈ (analyze doc).identifiers ↔
      n ∈ doc.expressions.flatMap collectIdentifiers) ∧
    (analyze doc).identifiers.Pairwise (fun x y =>
      (doc.expressions.flatMap collectIdentifiers).indexOf x <
        (doc.expressions.flatMap collectIdentifiers).indexOf y) := by
  refine ⟨nodup_dedupFirst _, ?_, pairwise_indexOf_dedupFirst _⟩
  intro n
  exact mem_dedupFirst _ n

/-- A parsed document whose two top-level expressions are the same bare
identifier; the embedded grammar itself produces this expression list
from the input string. -/
def dupDoc : ParsedDoc :=
  { lang := "math"
    detected := none
    string := "a, a"
    showSubExpressions := true
    expressions := [Expression.identifier "a", Expression.identifier "a"] }

/-- Claim C5 is false on the code: analyze does not collapse structurally
equal sub-expression nodes coming from different top-level expressions.
For the input "a, a" (which the grammar parses to two equal identifier
nodes) the subExpressions list contains the node twice. -/
theorem claim5_counterexample :
    logicParse "a, a" =
      .ok [RawNode.identifier "a", RawNode.identifier "a"] ∧
    (logicParse "a, a").map (fun l => l.map expressionFromJson) =
      .ok dupDoc.expressions ∧
    (analyze dupDoc).subExpressions =
      [Expression.identifier "a", Expression.identifier "a"] ∧
    ¬ (analyze dupDoc).subExpressions.Nodup := by
  refine ⟨rfl, rfl, rfl, ?_⟩
  decide

/-- Claim C5 as amended: subExpressions is the concatenation, over the
top-level expressions in list order, of each expression's subtree nodes
(root included) deduplicated within that one expression; structurally
equal nodes arising from different top-level expressions are all kept.
Within one expression the per-expression list is duplicate-free and
contains exactly the subtree nodes. -/
theorem claim5_amended (doc : ParsedDoc) :
    (analyze doc).subExpressions =
      doc.expressions.flatMap (fun e => collectSubExpressions e) ∧
    ∀ e : Expression, e ∈ doc.expressions →
      (collectSubExpressions e).Nodup ∧
      ∀ x : Expression, x ∈ collectSubExpressions e ↔ IsSubNode x e := by
  refine ⟨rfl, ?_⟩
  intro e _
  refine ⟨nodup_dedupFirst _, ?_⟩
  intro x
  rw [collectSubExpressions, mem_dedupFirst, mem_subNodes_iff]

/-- Witness for the amended claim C5 at the concrete document with the
duplicated identifier: the concatenation keeps both copies while each
per-expression list is a duplicate-free enumeration of the subtree. -/
theorem claim5_witness :
    (analyze dupDoc).subExpressions =
      dupDoc.expressions.flatMap (fun e => collectSubExpressions e) ∧
    (collectSubExpressions (Expression.identifier "a")).Nodup ∧
    ∀ x : Expression,
      x ∈ collectSubExpressions (Expression.identifier "a") ↔
        IsSubNode x (Expression.identifier "a") :=
  ⟨(claim5_amended dupDoc).1,
    ((claim5_amended dupDoc).2 (Expression.identifier "a")
      (List.mem_cons_self _ _)).1,
    ((claim5_amended dupDoc).2 (Expression.identifier "a")
      (List.mem_cons_self _ _)).2⟩

/-- Claim C6: the scanned selection state toggles — selecting r when r is
already selected yields none, and selecting r otherwise yields r (also
from the initial none state, since null === r is false); in particular
selecting 3 twice yields none and selecting 3 then 5 yields 5. -/
theorem claim6_selectRow_toggle :
    (∀ (s : Option Int) (r : Int),
      selectRowStep s (some r) = if s = some r then none else some r) ∧
    List.foldl selectRowStep none [some 3, some 3] = none ∧
    List.foldl selectRowStep none [some 3, some 5] = some 5 := by
  refine ⟨?_, by decide, by decide⟩
  intro s r
  cases s with
  | none => simp [selectRowStep, jsStrictEq]
  | some a =>
    by_cases h : a = r
    · simp [selectRowStep, jsStrictEq, h]
    · simp [selectRowStep, jsStrictEq, h]

/-- Claim C8: whenever a fresh analyzed document is produced (a new
generation of the combineLatest inputs), the first output record of the
switched-to inner stream has selection state none, regardless of the row
events and states of all earlier generations. -/
theorem claim8_reset_on_change (pre : List Segment) (seg : Segment) :
    ((modelTrace (pre ++ [seg])).drop (modelTrace pre).length).head? =
      some (mkOutState seg.lang seg.string seg.showSubExpressions
        seg.doc none) ∧
    (mkOutState seg.lang seg.string seg.showSubExpressions
        seg.doc none).selectedRow = none := by
  constructor
  · rw [modelTrace, modelTrace, List.flatMap_append, List.drop_left]
    show (segStates seg ++ [].flatMap segStates).head? = _
    rw [List.flatMap_nil, List.append_nil]
    rw [segStates, statesFor]
    cases h : seg.rowEvents with
    | nil => rw [List.scanl_nil]; rfl
    | cons a l => rw [List.scanl_cons]; rfl
  · rfl

/-- Claim C9: in every notation — i.e. for every lexer whose lexical
rules skip the empty input to the empty token stream — the grammar's
start rule (expressions : expressionList EOF | EOF) accepts the empty
input and yields the empty expression list. -/
theorem claim9_empty_input (lex : String → Except SynErr (List Token))
    (h : lex "" = .ok []) : parseWithLexer lex "" = .ok [] := by
  rw [parseWithLexer, h]
  rfl

/-- Witness for claim C9 at the lexer of the embedded grammar. -/
theorem claim9_witness :
    tokenize "".toList 0 = .ok [] ∧
    parseWithLexer (fun s => tokenize s.toList 0) "" = .ok [] :=
  ⟨rfl, claim9_empty_input (fun s => tokenize s.toList 0) rfl⟩

/-- Claim C10: on every parse failure, the record handleError emits sets
exactly the language, detected language, original string and the
error's message and location; the expressions, identifiers,
subExpressions and toplevelExpressions fields promised by the output
schema are absent from that record (as are the remaining schema
fields). -/
theorem claim10_handleError_fields (e : ParseError) :
    (handleError e).lang = some e.lang ∧
    (handleError e).detected = some e.detected ∧
    (handleError e).string = some e.string ∧
    (handleError e).error =
      some { location := e.location, message := e.message } ∧
    (handleError e).expressions = none ∧
    (handleError e).identifiers = none ∧
    (handleError e).subExpressions = none ∧
    (handleError e).toplevelExpressions = none ∧
    (handleError e).showSubExpressions = none ∧
    (handleError e).selectedRow = none :=
  ⟨rfl, rfl, rfl, rfl, rfl, rfl, rfl, rfl, rfl, rfl⟩

/-- Claim C1 is false on the code: the %left declarations list AND
first, and in jison/yacc a later declaration binds tighter, so AND is
the loosest operator, not the tightest of the binary set.  Concretely,
'a or b and c' parses as (a OR b) AND c, not as a OR (b AND c) as the
claim states. -/
theorem claim1_counterexample :
    logicParse "a or b and c" =
      .ok [RawNode.binary "AND"
        (RawNode.binary "OR" (RawNode.identifier "a")
          (RawNode.identifier "b"))
        (RawNode.identifier "c")] ∧
    ¬ logicParse "a or b and c" =
      .ok [RawNode.binary "OR" (RawNode.identifier "a")
        (RawNode.binary "AND" (RawNode.identifier "b")
          (RawNode.identifier "c"))] := by
  exact ⟨rfl, by decide⟩

/-- Claim C1 as amended: the grammar's precedence increases through the
%left list — AND (level 1) binds loosest, then OR (level 2), then XOR
(level 3), no two binary operators share a level — every binary
operator is left-associative, and NOT is the tightest-binding prefix
operator: between two binary operators of different levels the
looser one always ends up at the root, a repeated operator associates
to the left, and a NOT on the left operand stays below any binary
operator. -/
theorem claim1_amended_precedence :
    (opLevel Token.AND = some 1 ∧ opLevel Token.OR = some 2 ∧
      opLevel Token.XOR = some 3) ∧
    (∀ (a b c : String) (o1 o2 : Token) (l1 l2 : Nat),
      opLevel o1 = some l1 → opLevel o2 = some l2 → l1 < l2 →
      parseExpressions [Token.IDENTIFIER a, o1, Token.IDENTIFIER b, o2,
          Token.IDENTIFIER c] =
        .ok [RawNode.binary (opName o1) (RawNode.identifier a)
          (RawNode.binary (opName o2) (RawNode.identifier b)
            (RawNode.identifier c))] ∧
      parseExpressions [Token.IDENTIFIER a, o2, Token.IDENTIFIER b, o1,
          Token.IDENTIFIER c] =
        .ok [RawNode.binary (opName o1)
          (RawNode.binary (opName o2) (RawNode.identifier a)
            (RawNode.identifier b))
          (RawNode.identifier c)]) ∧
    (∀ (a b c : String) (o : Token) (l : Nat), opLevel o = some l →
      parseExpressions [Token.IDENTIFIER a, o, Token.IDENTIFIER b, o,
          Token.IDENTIFIER c] =
        .ok [RawNode.binary (opName o)
          (RawNode.binary (opName o) (RawNode.identifier a)
            (RawNode.identifier b))
          (RawNode.identifier c)]) ∧
    (∀ (a b : String) (o : Token) (l : Nat), opLevel o = some l →
      parseExpressions [Token.NOT, Token.IDENTIFIER a, o,
          Token.IDENTIFIER b] =
        .ok [RawNode.binary (opName o)
          (RawNode.unary "NOT" (RawNode.identifier a))
          (RawNode.identifier b)]) := by
  refine ⟨⟨rfl, rfl, rfl⟩, ?_, ?_, ?_⟩
  · intro a b c o1 o2 l1 l2 h1 h2 hlt
    cases o1 <;> cases o2 <;> simp_all [opLevel] <;>
      first
        | omega
        | exact ⟨rfl, rfl⟩
  · intro a b c o l h
    cases o <;> simp_all [opLevel] <;> rfl
  · intro a b o l h
    cases o <;> simp_all [opLevel] <;> rfl

/-- Witness for the amended claim C1 on concrete inputs: OR at the root
of 'a xor b or c' style token streams, left association of AND, and NOT
binding below OR. -/
theorem claim1_witness :
    (opLevel Token.OR = some 2 ∧ opLevel Token.XOR = some 3 ∧
      (2 : Nat) < 3) ∧
    parseExpressions [Token.IDENTIFIER "a", Token.OR, Token.IDENTIFIER "b",
        Token.XOR, Token.IDENTIFIER "c"] =
      .ok [RawNode.binary "OR" (RawNode.identifier "a")
        (RawNode.binary "XOR" (RawNode.identifier "b")
          (RawNode.identifier "c"))] ∧
    parseExpressions [Token.IDENTIFIER "a", Token.AND, Token.IDENTIFIER "b",
        Token.AND, Token.IDENTIFIER "c"] =
      .ok [RawNode.binary "AND"
        (RawNode.binary "AND" (RawNode.identifier "a")
          (RawNode.identifier "b"))
        (RawNode.identifier "c")] ∧
    parseExpressions [Token.NOT, Token.IDENTIFIER "a", Token.OR,
        Token.IDENTIFIER "b"] =
      .ok [RawNode.binary "OR"
        (RawNode.unary "NOT" (RawNode.identifier "a"))
        (RawNode.identifier "b")] :=
  ⟨⟨rfl, rfl, by decide⟩,
    (claim1_amended_precedence.2.1 "a" "b" "c" Token.OR Token.XOR 2 3 rfl rfl
      (by decide)).1,
    claim1_amended_precedence.2.2.1 "a" "b" "c" Token.AND 1 rfl,
    claim1_amended_precedence.2.2.2 "a" "b" Token.OR 2 rfl⟩

/-- The language at a position of the priority list. -/
def langGet (pc pp pl pm : String → Except SynErr LangResult)
    (j : Fin 4) : Language :=
  (allLanguagesOf pc pp pl pm).get ⟨j.1, j.2⟩

/-- Claim C2: auto-detect tries the concrete grammars in the fixed order
C, Python, Latex, Math; if every grammar before position i fails and the
grammar at position i succeeds, the overall result is that grammar's
parse result tagged lang 'auto' and detected = that grammar's name. -/
theorem claim2_auto_first_success
    (pc pp pl pm : String → Except SynErr LangResult) (s : String)
    (i : Fin 4) (v : LangResult)
    (hfail : ∀ j : Fin 4, j < i →
      ∃ e : SynErr, (langGet pc pp pl pm j).parse s = .error e)
    (hok : (langGet pc pp pl pm i).parse s = .ok v) :
    autoParse (allLanguagesOf pc pp pl pm) s =
      some (.ok
        { parsed := v.parsed
          lang := "auto"
          detected := some (langGet pc pp pl pm i).name }) := by
  fin_cases i
  · simp only [langGet, allLanguagesOf, List.get] at hok ⊢
    simp [autoParse, autoLoop, allLanguagesOf, hok]
  · obtain ⟨e0, h0⟩ := hfail 0 (by decide)
    simp only [langGet, allLanguagesOf, List.get] at hok h0 ⊢
    simp [autoParse, autoLoop, allLanguagesOf, h0, hok]
  · obtain ⟨e0, h0⟩ := hfail 0 (by decide)
    obtain ⟨e1, h1⟩ := hfail 1 (by decide)
    simp only [langGet, allLanguagesOf, List.get] at hok h0 h1 ⊢
    simp only [autoParse, autoLoop, allLanguagesOf, h0, h1, hok]
    split <;> simp [autoLoop, hok]
  · obtain ⟨e0, h0⟩ := hfail 0 (by decide)
    obtain ⟨e1, h1⟩ := hfail 1 (by decide)
    obtain ⟨e2, h2⟩ := hfail 2 (by decide)
    simp only [langGet, allLanguagesOf, List.get] at hok h0 h1 h2 ⊢
    simp only [autoParse, autoLoop, allLanguagesOf, h0, h1, h2, hok]
    split <;> split <;> simp [autoLoop, hok]

/-- Witness for claim C2: the first grammar rejects, the second accepts,
so detection reports Python with the second grammar's nodes. -/
theorem claim2_witness :
    autoParse
        (allLanguagesOf
          (fun _ => .error ⟨"no", ⟨⟨0⟩⟩⟩)
          (fun _ => .ok ⟨"python", [RawNode.identifier "a"]⟩)
          (fun _ => .ok ⟨"latex", []⟩)
          (fun _ => .error ⟨"no", ⟨⟨1⟩⟩⟩)) "a" =
      some (.ok
        { parsed := [RawNode.identifier "a"]
          lang := "auto"
          detected := some "Python" }) :=
  claim2_auto_first_success
    (fun _ => .error ⟨"no", ⟨⟨0⟩⟩⟩)
    (fun _ => .ok ⟨"python", [RawNode.identifier "a"]⟩)
    (fun _ => .ok ⟨"latex", []⟩)
    (fun _ => .error ⟨"no", ⟨⟨1⟩⟩⟩)
    "a" 1 ⟨"python", [RawNode.identifier "a"]⟩
    (by
      intro j hj
      fin_cases j
      · exact ⟨⟨"no", ⟨⟨0⟩⟩⟩, rfl⟩
      · exact absurd hj (by decide)
      · exact absurd hj (by decide)
      · exact absurd hj (by decide))
    rfl

/-- Claim C3: when all four grammars fail, auto-detect throws a
ParseError carrying the message and location of the failure whose
location offset is largest, with detected equal to that grammar's name;
on a tie the grammar earlier in the priority order wins (the loop only
replaces the remembered failure on a strictly larger offset). -/
theorem claim3_auto_furthest_failure
    (pc pp pl pm : String → Except SynErr LangResult) (s : String)
    (e : Fin 4 → SynErr) (k : Fin 4)
    (hfail : ∀ j : Fin 4, (langGet pc pp pl pm j).parse s = .error (e j))
    (hmax : ∀ j : Fin 4,
      (e j).location.start.offset ≤ (e k).location.start.offset)
    (hfirst : ∀ j : Fin 4, j < k →
      (e j).location.start.offset < (e k).location.start.offset) :
    autoParse (allLanguagesOf pc pp pl pm) s =
      some (.error
        { lang := "auto"
          string := s
          message := (e k).message
          location := (e k).location
          detected := some (langGet pc pp pl pm k).name }) := by
  have hk4 : ∀ j : Fin 4, j = 0 ∨ j = 1 ∨ j = 2 ∨ j = 3 := by decide
  have h0 : pc s = .error (e 0) := hfail 0
  have h1 : pp s = .error (e 1) := hfail 1
  have h2 : pl s = .error (e 2) := hfail 2
  have h3 : pm s = .error (e 3) := hfail 3
  have x0 := hmax 0
  have x1 := hmax 1
  have x2 := hmax 2
  have x3 := hmax 3
  rcases hk4 k with rfl | rfl | rfl | rfl
  · simp only [autoParse, autoLoop, allLanguagesOf, h0, h1, h2, h3]
    split_ifs <;> first | rfl | omega
  · have m0 := hfirst 0 (by decide)
    simp only [autoParse, autoLoop, allLanguagesOf, h0, h1, h2, h3]
    split_ifs <;> first | rfl | omega
  · have m0 := hfirst 0 (by decide)
    have m1 := hfirst 1 (by decide)
    simp only [autoParse, autoLoop, allLanguagesOf, h0, h1, h2, h3]
    split_ifs <;> first | rfl | omega
  · have m0 := hfirst 0 (by decide)
    have m1 := hfirst 1 (by decide)
    have m2 := hfirst 2 (by decide)
    simp only [autoParse, autoLoop, allLanguagesOf, h0, h1, h2, h3]
    split_ifs <;> first | rfl | omega

/-- The four failures used to witness the furthest-failure heuristic:
offsets 1, 0, 5, 5 — the third grammar is the first one reaching the
maximal offset. -/
def wErrs : List SynErr :=
  [⟨"c fail", ⟨⟨1⟩⟩⟩, ⟨"py fail", ⟨⟨0⟩⟩⟩, ⟨"la fail", ⟨⟨5⟩⟩⟩,
    ⟨"ma fail", ⟨⟨5⟩⟩⟩]

/-- Witness for claim C3: with failures at offsets 1, 0, 5, 5 the error
reported is the Latex one (offset 5, earlier of the two tied grammars). -/
theorem claim3_witness :
    autoParse
        (allLanguagesOf
          (fun _ => .error ⟨"c fail", ⟨⟨1⟩⟩⟩)
          (fun _ => .error ⟨"py fail", ⟨⟨0⟩⟩⟩)
          (fun _ => .error ⟨"la fail", ⟨⟨5⟩⟩⟩)
          (fun _ => .error ⟨"ma fail", ⟨⟨5⟩⟩⟩)) "z" =
      some (.error
        { lang := "auto"
          string := "z"
          message := "la fail"
          location := ⟨⟨5⟩⟩
          detected := some "Latex" }) :=
  claim3_auto_furthest_failure
    (fun _ => .error ⟨"c fail", ⟨⟨1⟩⟩⟩)
    (fun _ => .error ⟨"py fail", ⟨⟨0⟩⟩⟩)
    (fun _ => .error ⟨"la fail", ⟨⟨5⟩⟩⟩)
    (fun _ => .error ⟨"ma fail", ⟨⟨5⟩⟩⟩)
    "z" (fun j => wErrs.get ⟨j.1, j.2⟩) 2
    (by intro j; fin_cases j <;> rfl)
    (by decide)
    (by decide)

theorem mapGet_append {κ β : Type} [DecidableEq κ]
    (xs ys : List (κ × β)) (k : κ) :
    mapGet (xs ++ ys) k =
      match mapGet ys k with
      | some v => some v
      | none => mapGet xs k := by
  induction xs with
  | nil =>
    cases h : mapGet ys k <;> simp [mapGet, h]
  | cons p xs ih =>
    rw [List.cons_append, mapGet, ih]
    cases h : mapGet ys k <;> cases h2 : mapGet xs k <;> simp [mapGet, h, h2]

theorem mapGet_eq_none {κ β : Type} [DecidableEq κ]
    (l : List (κ × β)) (k : κ) (h : ∀ p ∈ l, ¬ p.1 = k) :
    mapGet l k = none := by
  induction l with
  | nil => rfl
  | cons p l ih =>
    rw [mapGet, ih (fun q hq => h q (List.mem_cons_of_mem p hq))]
    simp [h p (List.mem_cons_self p l)]

theorem mapGet_map_inl (tops : List Expression)
    (g : Expression → Option Bool) (e : Expression) (he : e ∈ tops) :
    mapGet (tops.map (fun x => ((Sum.inl x : EvalKey), g x)))
      (Sum.inl e) = some (g e) := by
  induction tops with
  | nil => cases he
  | cons x xs ih =>
    rw [List.map_cons, mapGet]
    by_cases hx : e ∈ xs
    · rw [ih hx]
    · have hex : e = x := by
        rcases List.mem_cons.mp he with h1 | h2
        · exact h1
        · exact absurd h2 hx
      subst hex
      rw [mapGet_eq_none]
      · simp
      · intro p hp
        rcases List.mem_map.mp hp with ⟨y, hy, rfl⟩
        simp only [Sum.inl.injEq]
        intro hye
        exact hx (hye ▸ hy)

theorem mem_mapWithIndex {α β : Type} (f : α → Nat → β) :
    ∀ (l : List α) (k : Nat) (x : β), x ∈ mapWithIndex f l k →
      ∃ (a : α) (i : Nat), a ∈ l ∧ x = f a i := by
  intro l
  induction l with
  | nil =>
    intro k x hx
    cases hx
  | cons a as ih =>
    intro k x hx
    rcases List.mem_cons.mp hx with h1 | h2
    · exact ⟨a, k, List.mem_cons_self a as, h1⟩
    · rcases ih (k + 1) x h2 with ⟨b, i, hb, hfx⟩
      exact ⟨b, i, List.mem_cons_of_mem a hb, hfx⟩

theorem mapGet_idEntries (v : Nat → Bool) :
    ∀ (ids : List String) (k i : Nat) (hi : i < ids.length),
      ids.Nodup →
      mapGet ((mapWithIndex (fun name j => (name, v j)) ids k).map
          (fun p => ((Sum.inr p.1 : EvalKey), some p.2)))
        (Sum.inr (ids.get ⟨i, hi⟩)) = some (some (v (k + i))) := by
  intro ids
  induction ids with
  | nil =>
    intro k i hi
    cases hi
  | cons a as ih =>
    intro k i hi hnd
    rcases List.nodup_cons.mp hnd with ⟨hna, hnd'⟩
    cases i with
    | zero =>
      rw [mapWithIndex, List.map_cons, mapGet]
      rw [mapGet_eq_none]
      · simp [List.get]
      · intro p hp
        rcases List.mem_map.mp hp with ⟨q, hq, rfl⟩
        rcases mem_mapWithIndex _ as (k + 1) q hq with ⟨b, j, hb, rfl⟩
        simp only [Sum.inr.injEq, List.get]
        intro hba
        exact hna (hba ▸ hb)
    | succ i' =>
      rw [mapWithIndex, List.map_cons, mapGet]
      have hi' : i' < as.length := Nat.lt_of_succ_lt_succ hi
      have hrec := ih (k + 1) i' hi' hnd'
      have hget : (a :: as).get ⟨i' + 1, hi⟩ = as.get ⟨i', hi'⟩ := rfl
      rw [hget, hrec]
      have : k + 1 + i' = k + (i' + 1) := by omega
      rw [this]

/-- The stored bit value !!(Math.pow(2, i) & r) agrees with bit i of r
whenever 0 ≤ r < 2^31 (the entire selectable row range: rows live in
[0, 2^identifier-count)). -/
theorem identifierBit (i : Nat) (r : Int) (h0 : 0 ≤ r)
    (h31 : r < (2 : Int) ^ 31) :
    (!(jsAnd (mathPow2 i) r = 0 : Bool)) = r.toNat.testBit i := by
  have hr32 : r % (2 : Int) ^ 32 = r := by
    rw [Int.emod_eq_of_lt h0 (by linarith [h31])]
  have hmr : toUint32 r = r.toNat := by
    rw [toUint32, hr32]
  have hmlt : r.toNat < 2 ^ 31 := by
    have h31' := h31
    norm_num at h31' ⊢
    omega
  by_cases hige : 32 ≤ i
  · have hdvd : ((2 : Int) ^ 32) ∣ (2 : Int) ^ i := pow_dvd_pow 2 hige
    have hz : toUint32 (mathPow2 i) = 0 := by
      rw [toUint32, mathPow2, Int.emod_eq_zero_of_dvd hdvd]
      rfl
    have hland0 : Nat.land 0 (toUint32 r) = 0 := Nat.zero_and _
    have hland : jsAnd (mathPow2 i) r = 0 := by
      rw [jsAnd, hz, hland0]
      norm_num [toInt32]
    have hbit : r.toNat.testBit i = false := by
      refine Nat.testBit_eq_false_of_lt ?_
      calc r.toNat < 2 ^ 31 := hmlt
        _ ≤ 2 ^ i := Nat.pow_le_pow_right (by norm_num) (by omega)
    rw [hland, hbit]
    simp
  · have hilt : i < 32 := by omega
    have hplt : (2 : Int) ^ i < (2 : Int) ^ 32 := by
      refine pow_lt_pow_right₀ (by norm_num) hilt
    have hp2 : toUint32 (mathPow2 i) = 2 ^ i := by
      rw [toUint32, mathPow2, Int.emod_eq_of_lt (by positivity) hplt]
      rw [show ((2 : Int) ^ i) = ((2 ^ i : Nat) : Int) by push_cast; ring]
      exact Int.toNat_natCast _
    have hland : Nat.land (2 ^ i) r.toNat =
        2 ^ i * (r.toNat.testBit i).toNat := Nat.two_pow_and r.toNat i
    cases hbit : r.toNat.testBit i with
    | false =>
      have : jsAnd (mathPow2 i) r = 0 := by
        rw [jsAnd, hp2, hmr, hland, hbit]
        norm_num [toInt32]
      rw [this]
      simp
    | true =>
      have hi30 : i ≤ 30 := by
        by_contra hgt
        have hieq : i = 31 := by omega
        subst hieq
        rw [Nat.testBit_eq_false_of_lt hmlt] at hbit
        cases hbit
      have hval : Nat.land (2 ^ i) r.toNat = 2 ^ i := by
        rw [hland, hbit]
        simp
      have hsmall : ((2 : Int) ^ i) < (2 : Int) ^ 31 := by
        refine pow_lt_pow_right₀ (by norm_num) (by omega)
      have hjs : jsAnd (mathPow2 i) r = (2 : Int) ^ i := by
        rw [jsAnd, hp2, hmr, hval]
        rw [show ((2 ^ i : Nat) : Int) = (2 : Int) ^ i by push_cast; ring]
        simp only [toInt32]
        rw [Int.emod_eq_of_lt (by positivity) hplt]
        have hsmall' : (2 : Int) ^ i < 2147483648 := by
          norm_num at hsmall
          exact hsmall
        simp [hsmall']
      rw [hjs]
      have hne : ((2 : Int) ^ i) ≠ 0 := by positivity
      simp [hne]

/-- Claim C7: with a row r selected, the built assignment maps
identifiers[i] to bit i of r (true iff 2^i & r is nonzero), and the
evaluation mapping contains the evaluation of every top-level
expression under that assignment merged with the assignment itself;
with no row selected the evaluation result is none.  The hypotheses
0 ≤ r < 2^31 cover every selectable row (rows range over
[0, 2^identifier-count) and the truth table is indexed with 32-bit
JavaScript bitwise arithmetic). -/
theorem claim7_evaluation (ids : List String) (tops : List Expression)
    (r : Int) (i : Nat) (hnd : ids.Nodup) (hi : i < ids.length)
    (h0 : 0 ≤ r) (h31 : r < (2 : Int) ^ 31) :
    subEvalutation ids tops none = none ∧
    ∃ entries : List (EvalKey × Option Bool),
      subEvalutation ids tops (some r) = some entries ∧
      mapGet entries (Sum.inr (ids.get ⟨i, hi⟩)) =
        some (some (r.toNat.testBit i)) ∧
      ∀ e ∈ tops, mapGet entries (Sum.inl e) =
        some (evaluateExpression (identifierMapOf ids r) e) := by
  refine ⟨rfl, ⟨_, rfl, ?_, ?_⟩⟩
  · rw [mapGet_append]
    have hlook := mapGet_idEntries
      (fun j => !(jsAnd (mathPow2 j) r = 0)) ids 0 i hi hnd
    rw [identifierMapOf, hlook]
    show some (some (!(jsAnd (mathPow2 (0 + i)) r = 0 : Bool))) =
      some (some (r.toNat.testBit i))
    rw [Nat.zero_add, identifierBit i r h0 h31]
  · intro e he
    rw [mapGet_append]
    have hnone : mapGet
        ((identifierMapOf ids r).map
          (fun p => ((Sum.inr p.1 : EvalKey), some p.2)))
        (Sum.inl e) = none := by
      refine mapGet_eq_none _ _ ?_
      intro p hp
      rcases List.mem_map.mp hp with ⟨q, _, rfl⟩
      simp
    rw [hnone]
    exact mapGet_map_inl tops
      (fun x => evaluateExpression (identifierMapOf ids r) x) e he

/-- The expression a AND b used to witness claim C7. -/
def demoTop : Expression :=
  Expression.binaryOp "AND" (Expression.identifier "a")
    (Expression.identifier "b")

/-- Witness for claim C7: identifiers [a, b], row 1 (bit0 = a = true,
bit1 = b = false): a is looked up as true and a AND b evaluates to
false; with no row selected the evaluation is none. -/
theorem claim7_witness :
    ((["a", "b"] : List String).Nodup ∧ 0 < 2 ∧ (0 : Int) ≤ 1 ∧
      (1 : Int) < (2 : Int) ^ 31) ∧
    (subEvalutation ["a", "b"] [demoTop] none = none ∧
      ∃ entries : List (EvalKey × Option Bool),
        subEvalutation ["a", "b"] [demoTop] (some 1) = some entries ∧
        mapGet entries (Sum.inr "a") = some (some true) ∧
        ∀ e ∈ [demoTop], mapGet entries (Sum.inl e) =
          some (evaluateExpression (identifierMapOf ["a", "b"] 1) e)) :=
  ⟨⟨by decide, by decide, by decide, by decide⟩,
    claim7_evaluation ["a", "b"] [demoTop] 1 0 (by decide) (by decide)
      (by decide) (by decide)⟩

end TamsLogic
